import Mathlib

/-!
Shallow embedding of `src/recursive_cache.rs` from the `uncertain-rs`
repository: the recursive cached sampling engine for `Uncertain<f64>`.

Modelling conventions:
* `f64` values are modelled as `ℤ` (the claims under scrutiny concern
  cache/correlation behaviour, not floating-point rounding; the engine
  treats values opaquely through closures, and every arithmetic fact the
  claims rely on — `a - a = 0`, doubling — holds in any commutative ring).
* `uuid::Uuid` identities are modelled as `Nat`.
* An impure `draw` closure is modelled as a stream `Nat → Value` read at an
  ever-increasing per-identity invocation counter held in the state, so the
  number of draw invocations is observable.
* The process-wide distribution cache (`dist_cache()`), which lives outside
  `src/`, is modelled from the spec (§4.2) as an association list from
  `(identity, count)` to a sample sequence, threaded explicitly as state.
* A Rust `panic!` is modelled as `Except.error` carrying the panic message;
  the state at the moment of the panic is returned alongside it.
-/

set_option autoImplicit false

namespace UncertainRs

/-- `f64` sample values, modelled as integers. -/
abbrev Value := ℤ

/-- `uuid::Uuid`, modelled as a natural number. -/
abbrev Id := Nat

/-- `UnaryOperation<T>` from `computation.rs` (not under `src/`): a `Map`
transform or a `Filter` predicate. -/
inductive UnaryOperation (α : Type) : Type where
  | Map (f : α → α)
  | Filter (p : α → Bool)

/-- Modelled from the spec: `ComputationNode<bool>`, the boolean condition
graph of a `Conditional` (§3). The f64 engine in `recursive_cache.rs` never
traverses it (`collect_leaves_recursive_bool` ignores it and `Conditional`
evaluation panics), so only its shape matters here. -/
inductive BoolNode : Type where
  | Leaf (id : Id) (sample : Nat → Bool)
  | BinaryOp (left right : BoolNode) (operation : Bool → Bool → Bool)
  | UnaryOp (operand : BoolNode) (operation : UnaryOperation Bool)
  | Conditional (condition if_true if_false : BoolNode)

/-- Modelled from the spec: `ComputationNode<f64>` (§3) — the expression
graph. A `BinaryOperation`'s `apply` is modelled directly as a function. -/
inductive ComputationNode : Type where
  | Leaf (id : Id) (sample : Nat → Value)
  | BinaryOp (left right : ComputationNode) (operation : Value → Value → Value)
  | UnaryOp (operand : ComputationNode) (operation : UnaryOperation Value)
  | Conditional (condition : BoolNode) (if_true if_false : ComputationNode)

/-- Modelled from the spec: `Uncertain<f64>` — a handle pairing an identity,
a draw capability (`sample_fn`) and a graph root (§3). -/
structure Uncertain : Type where
  id : Id
  sample_fn : Nat → Value
  node : ComputationNode

/-- The mutable world threaded through the engine: the process-wide sample
cache (keyed by `(identity, count)`) and, per identity, how many times that
identity's draw closure has been invoked so far. -/
structure CacheState : Type where
  cache : List ((Id × Nat) × List Value)
  drawCount : Id → Nat

/-- Lookup of a `(identity, count)` key in the cache's association list. -/
def cacheGet (c : List ((Id × Nat) × List Value)) (id : Id) (count : Nat) :
    Option (List Value) :=
  match c with
  | [] => none
  | (k, v) :: rest => if k = (id, count) then some v else cacheGet rest id count

/-- One invocation of the draw closure registered under `id`: read the stream
at the current invocation counter and bump the counter. -/
def drawOne (id : Id) (sample : Nat → Value) (st : CacheState) :
    Value × CacheState :=
  (sample (st.drawCount id),
   { st with
       drawCount := fun j => if j = id then st.drawCount id + 1 else st.drawCount j })

/-- `count` successive invocations of the draw closure registered under
`id` (the producer used when a source's samples are not yet cached). -/
def drawN (id : Id) (sample : Nat → Value) (count : Nat) (st : CacheState) :
    List Value × CacheState :=
  ((List.range count).map (fun i => sample (st.drawCount id + i)),
   { st with
       drawCount := fun j => if j = id then st.drawCount id + count else st.drawCount j })

/-- Modelled from the spec: `dist_cache().get_or_compute_samples` (§4.2) —
if `(id, count)` is present return the stored sequence without running the
producer; otherwise run the producer once, store its result, return it. -/
def getOrComputeSamples (st : CacheState) (id : Id) (count : Nat)
    (producer : CacheState → List Value × CacheState) :
    List Value × CacheState :=
  match cacheGet st.cache id count with
  | some v => (v, st)
  | none =>
      let p := producer st
      (p.1, { p.2 with cache := ((id, count), p.1) :: p.2.cache })

/-- Modelled from the spec: `Uncertain::take_samples_cached` (§4.3 step 3) —
ensure `(self.id, count)` is cached, invoking `self.sample_fn` exactly
`count` times as producer when the entry is absent. -/
def Uncertain.take_samples_cached (u : Uncertain) (count : Nat)
    (st : CacheState) : List Value × CacheState :=
  getOrComputeSamples st u.id count (drawN u.id u.sample_fn count)

/-- The leaf map built during discovery: `HashMap<Uuid, Uncertain<f64>>`,
modelled as an association list with unique keys (insert checks
`contains_key` first). -/
abbrev LeafMap := List (Id × Uncertain)

/-- `HashMap::get` on the leaf map. -/
def lookupLeaf (m : LeafMap) (id : Id) : Option Uncertain :=
  match m with
  | [] => none
  | (k, v) :: rest => if k = id then some v else lookupLeaf rest id

/-- `HashMap::contains_key` on the leaf map. -/
def containsLeaf (m : LeafMap) (id : Id) : Bool :=
  (lookupLeaf m id).isSome

/-- `collect_leaves_recursive_bool` (`recursive_cache.rs:86`): bool nodes are
skipped — they are not f64. -/
def collect_leaves_recursive_bool (_node : BoolNode) (leaves : LeafMap) :
    LeafMap :=
  leaves

/-- `collect_leaves_recursive` (`recursive_cache.rs:49`): walk the graph and,
for each `Leaf` whose id is not yet a key, insert an `Uncertain` wrapper
preserving the original id and draw closure. -/
def collect_leaves_recursive (node : ComputationNode) (leaves : LeafMap) :
    LeafMap :=
  match node with
  | .Leaf id sample =>
      if containsLeaf leaves id then leaves
      else leaves ++ [(id, { id := id, sample_fn := sample,
                             node := ComputationNode.Leaf id sample })]
  | .BinaryOp left right _ =>
      collect_leaves_recursive right (collect_leaves_recursive left leaves)
  | .UnaryOp operand _ =>
      collect_leaves_recursive operand leaves
  | .Conditional condition if_true if_false =>
      collect_leaves_recursive if_false
        (collect_leaves_recursive if_true
          (collect_leaves_recursive_bool condition leaves))

/-- `collect_leaves` (`recursive_cache.rs:43`). -/
def collect_leaves (node : ComputationNode) : LeafMap :=
  collect_leaves_recursive node []

/-- `evaluate_with_cached_leaves` (`recursive_cache.rs:94`): evaluate the
graph at one sample index against cached leaf sequences. A `Leaf` found in
the leaf map reads the cached sequence via `get_or_compute_samples` (whose
producer re-draws `sample_count` times, "should not be called since we
pre-cached"); a missing index or a leaf absent from the map falls back to a
direct `sample()` invocation. `Conditional` panics. -/
def evaluate_with_cached_leaves (node : ComputationNode) (leaf_map : LeafMap)
    (sample_idx : Nat) (sample_count : Nat) (st : CacheState) :
    Except String Value × CacheState :=
  match node with
  | .Leaf id sample =>
      match lookupLeaf leaf_map id with
      | some leaf_uncertain =>
          let r := getOrComputeSamples st leaf_uncertain.id sample_count
                     (drawN leaf_uncertain.id leaf_uncertain.sample_fn sample_count)
          match r.1.get? sample_idx with
          | some value => (.ok value, r.2)
          | none =>
              let d := drawOne id sample r.2
              (.ok d.1, d.2)
      | none =>
          let d := drawOne id sample st
          (.ok d.1, d.2)
  | .BinaryOp left right operation =>
      let l := evaluate_with_cached_leaves left leaf_map sample_idx sample_count st
      match l.1 with
      | .error e => (.error e, l.2)
      | .ok left_val =>
          let r := evaluate_with_cached_leaves right leaf_map sample_idx sample_count l.2
          match r.1 with
          | .error e => (.error e, r.2)
          | .ok right_val => (.ok (operation left_val right_val), r.2)
  | .UnaryOp operand operation =>
      let o := evaluate_with_cached_leaves operand leaf_map sample_idx sample_count st
      match o.1 with
      | .error e => (.error e, o.2)
      | .ok operand_val =>
          match operation with
          | .Map f => (.ok (f operand_val), o.2)
          | .Filter _ => (.ok operand_val, o.2)
  | .Conditional _ _ _ =>
      (.error "Conditional nodes not supported for f64 recursive caching", st)

/-- The pre-caching loop of `take_samples_cached_recursive`
(`recursive_cache.rs:20`): `take_samples_cached(count)` on every discovered
leaf, discarding results. -/
def precacheLeaves (leaves : List (Id × Uncertain)) (count : Nat)
    (st : CacheState) : CacheState :=
  match leaves with
  | [] => st
  | (_, lu) :: rest => precacheLeaves rest count (lu.take_samples_cached count st).2

/-- The `for sample_idx in 0..count` loop of `take_samples_cached_recursive`
(`recursive_cache.rs:29`), as a recursion on the number of remaining
indices. A panic aborts the loop, surfacing the error and the state at the
moment of the panic. -/
def evalIndices (node : ComputationNode) (leaf_map : LeafMap) (count : Nat)
    (sample_idx : Nat) (remaining : Nat) (st : CacheState) :
    Except String (List Value) × CacheState :=
  match remaining with
  | 0 => (.ok [], st)
  | n + 1 =>
      let r := evaluate_with_cached_leaves node leaf_map sample_idx count st
      match r.1 with
      | .error e => (.error e, r.2)
      | .ok v =>
          let rest := evalIndices node leaf_map count (sample_idx + 1) n r.2
          match rest.1 with
          | .error e => (.error e, rest.2)
          | .ok vs => (.ok (v :: vs), rest.2)

/-- `Uncertain::take_samples_cached_recursive` (`recursive_cache.rs:10`):
collect leaves, pre-cache each leaf's `count` samples, evaluate the graph
once per sample index against the cached leaf samples, store the results
under the handle's own id via `get_or_compute_samples`, and return the
(freshly computed) results. There is no top-level cache probe. -/
def Uncertain.take_samples_cached_recursive (u : Uncertain) (count : Nat)
    (st : CacheState) : Except String (List Value) × CacheState :=
  let leaf_map := collect_leaves u.node
  let st1 := precacheLeaves leaf_map count st
  let r := evalIndices u.node leaf_map count 0 count st1
  match r.1 with
  | .error e => (.error e, r.2)
  | .ok results =>
      let fin := getOrComputeSamples r.2 u.id count (fun s => (results, s))
      (.ok results, fin.2)

/-- Conditional-freeness of a graph (the supported fragment of the f64
evaluator). -/
def noConditional : ComputationNode → Bool
  | .Leaf _ _ => true
  | .BinaryOp left right _ => noConditional left && noConditional right
  | .UnaryOp operand _ => noConditional operand
  | .Conditional _ _ _ => false

/-- Cache well-formedness: every stored sequence has the length recorded in
its key. Every entry the engine itself stores satisfies this; it is the
reachable-state invariant of the cache. -/
def WF (st : CacheState) : Prop :=
  ∀ id n v, cacheGet st.cache id n = some v → v.length = n

/-- Every leaf registered in the map has a fully populated cached sequence
of length `n` (the post-condition of the pre-caching loop). -/
def LeafFull (lm : LeafMap) (n : Nat) (st : CacheState) : Prop :=
  ∀ p ∈ lm, ∃ v, cacheGet st.cache p.2.id n = some v ∧ v.length = n

/-- The leaf map covers the graph: every `Leaf` id reachable in the f64 part
of the graph is a key (a `Conditional` is never descended into by the
evaluator, so it imposes no requirement). -/
def Covers (lm : LeafMap) : ComputationNode → Prop
  | .Leaf id _ => ∃ lu, lookupLeaf lm id = some lu
  | .BinaryOp left right _ => Covers lm left ∧ Covers lm right
  | .UnaryOp operand _ => Covers lm operand
  | .Conditional _ _ _ => True

instance {α : Type} [DecidableEq α] : DecidableEq (Except String α) := fun a b =>
  match a, b with
  | .ok x, .ok y =>
      if h : x = y then .isTrue (by rw [h]) else .isFalse (fun hc => by cases hc; exact h rfl)
  | .error x, .error y =>
      if h : x = y then .isTrue (by rw [h]) else .isFalse (fun hc => by cases hc; exact h rfl)
  | .ok _, .error _ => .isFalse (fun hc => by cases hc)
  | .error _, .ok _ => .isFalse (fun hc => by cases hc)

theorem cacheGet_cons_self (c : List ((Id × Nat) × List Value)) (id : Id)
    (n : Nat) (v : List Value) :
    cacheGet (((id, n), v) :: c) id n = some v := by
  simp [cacheGet]

theorem cacheGet_cons_ne (c : List ((Id × Nat) × List Value)) (k : Id × Nat)
    (w : List Value) (id : Id) (n : Nat) (h : k ≠ (id, n)) :
    cacheGet ((k, w) :: c) id n = cacheGet c id n := by
  simp [cacheGet, h]

theorem drawN_cache (id : Id) (s : Nat → Value) (count : Nat) (st : CacheState) :
    (drawN id s count st).2.cache = st.cache := rfl

theorem drawN_length (id : Id) (s : Nat → Value) (count : Nat) (st : CacheState) :
    (drawN id s count st).1.length = count := by
  simp [drawN]

theorem drawN_zero_drawCount (id : Id) (s : Nat → Value) (st : CacheState) :
    (drawN id s 0 st).2.drawCount = st.drawCount := by
  funext j
  simp only [drawN]
  split <;> simp_all

theorem getOrComputeSamples_present {st : CacheState} {id : Id} {n : Nat}
    {v : List Value} (p : CacheState → List Value × CacheState)
    (h : cacheGet st.cache id n = some v) :
    getOrComputeSamples st id n p = (v, st) := by
  simp [getOrComputeSamples, h]

theorem getOrComputeSamples_absent {st : CacheState} {id : Id} {n : Nat}
    (p : CacheState → List Value × CacheState)
    (h : cacheGet st.cache id n = none) :
    getOrComputeSamples st id n p
      = ((p st).1, { (p st).2 with cache := ((id, n), (p st).1) :: (p st).2.cache }) := by
  simp [getOrComputeSamples, h]

/-- `get_or_compute` never disturbs an entry that is already present,
provided the producer does not touch the cache (all producers in this file
satisfy that). -/
theorem getOrComputeSamples_pres {st : CacheState} {id : Id} {n : Nat}
    {p : CacheState → List Value × CacheState}
    (hp : ∀ s, ((p s).2).cache = s.cache)
    {a : Id} {b : Nat} {w : List Value}
    (h : cacheGet st.cache a b = some w) :
    cacheGet (getOrComputeSamples st id n p).2.cache a b = some w := by
  rcases hprobe : cacheGet st.cache id n with _ | v
  · rw [getOrComputeSamples_absent p hprobe]
    have hne : ((id, n) : Id × Nat) ≠ (a, b) := by
      intro he
      rw [Prod.mk.injEq] at he
      rw [he.1, he.2] at hprobe
      rw [hprobe] at h
      exact Option.noConfusion h
    simp only []
    rw [cacheGet_cons_ne _ _ _ _ _ hne, hp st]
    exact h
  · rw [getOrComputeSamples_present p hprobe]
    exact h

/-- `get_or_compute` preserves cache well-formedness when the producer does
not touch the cache and produces a sequence of the keyed length. -/
theorem getOrComputeSamples_WF {st : CacheState} {id : Id} {n : Nat}
    {p : CacheState → List Value × CacheState}
    (hp : ∀ s, ((p s).2).cache = s.cache)
    (hlen : ((p st).1).length = n)
    (hWF : WF st) :
    WF (getOrComputeSamples st id n p).2 := by
  rcases hprobe : cacheGet st.cache id n with _ | v
  · rw [getOrComputeSamples_absent p hprobe]
    intro a b w hw
    simp only [] at hw
    by_cases hk : ((id, n) : Id × Nat) = (a, b)
    · rw [Prod.mk.injEq] at hk
      obtain ⟨h1, h2⟩ := hk
      subst h1
      subst h2
      rw [cacheGet_cons_self] at hw
      cases hw
      exact hlen
    · rw [cacheGet_cons_ne _ _ _ _ _ hk, hp st] at hw
      exact hWF a b w hw
  · rw [getOrComputeSamples_present p hprobe]
    exact hWF

/-- After `get_or_compute` the key is present, with a sequence of the keyed
length (under well-formedness, for the hit case). -/
theorem getOrComputeSamples_populates {st : CacheState} {id : Id} {n : Nat}
    {p : CacheState → List Value × CacheState}
    (hlen : ((p st).1).length = n)
    (hWF : WF st) :
    ∃ v, cacheGet (getOrComputeSamples st id n p).2.cache id n = some v
      ∧ v.length = n := by
  rcases hprobe : cacheGet st.cache id n with _ | v
  · rw [getOrComputeSamples_absent p hprobe]
    exact ⟨(p st).1, cacheGet_cons_self _ _ _ _, hlen⟩
  · rw [getOrComputeSamples_present p hprobe]
    exact ⟨v, hprobe, hWF id n v hprobe⟩

theorem take_samples_cached_pres {u : Uncertain} {count : Nat} {st : CacheState}
    {a : Id} {b : Nat} {w : List Value}
    (h : cacheGet st.cache a b = some w) :
    cacheGet (u.take_samples_cached count st).2.cache a b = some w :=
  getOrComputeSamples_pres (fun _ => rfl) h

theorem take_samples_cached_WF {u : Uncertain} {count : Nat} {st : CacheState}
    (hWF : WF st) :
    WF (u.take_samples_cached count st).2 :=
  getOrComputeSamples_WF (fun _ => rfl) (drawN_length _ _ _ _) hWF

theorem take_samples_cached_populates {u : Uncertain} {count : Nat}
    {st : CacheState} (hWF : WF st) :
    ∃ v, cacheGet (u.take_samples_cached count st).2.cache u.id count = some v
      ∧ v.length = count :=
  getOrComputeSamples_populates (drawN_length _ _ _ _) hWF

/-- If a leaf's samples are already present, `take_samples_cached` returns
the state unchanged. -/
theorem take_samples_cached_id {u : Uncertain} {count : Nat} {st : CacheState}
    {v : List Value} (h : cacheGet st.cache u.id count = some v) :
    (u.take_samples_cached count st).2 = st := by
  unfold Uncertain.take_samples_cached
  rw [getOrComputeSamples_present _ h]

theorem precacheLeaves_pres {L : List (Id × Uncertain)} {count : Nat}
    {st : CacheState} {a : Id} {b : Nat} {w : List Value}
    (h : cacheGet st.cache a b = some w) :
    cacheGet (precacheLeaves L count st).cache a b = some w := by
  induction L generalizing st with
  | nil => exact h
  | cons hd tl ih =>
      obtain ⟨k, lu⟩ := hd
      exact ih (take_samples_cached_pres h)

theorem precacheLeaves_WF {L : List (Id × Uncertain)} {count : Nat}
    {st : CacheState} (hWF : WF st) :
    WF (precacheLeaves L count st) := by
  induction L generalizing st with
  | nil => exact hWF
  | cons hd tl ih =>
      obtain ⟨k, lu⟩ := hd
      exact ih (take_samples_cached_WF hWF)

/-- Post-condition of the pre-caching loop: every discovered leaf has a
fully populated cached sequence of the requested length. -/
theorem precacheLeaves_full {L : List (Id × Uncertain)} {count : Nat}
    {st : CacheState} (hWF : WF st) :
    LeafFull L count (precacheLeaves L count st) := by
  induction L generalizing st with
  | nil => intro p hp; cases hp
  | cons hd tl ih =>
      obtain ⟨k, lu⟩ := hd
      intro p hp
      rcases List.mem_cons.mp hp with he | ht
      · subst he
        obtain ⟨v, hv, hlen⟩ := @take_samples_cached_populates lu count st hWF
        refine ⟨v, ?_, hlen⟩
        show cacheGet (precacheLeaves tl count (lu.take_samples_cached count st).2).cache lu.id count = some v
        exact precacheLeaves_pres hv
      · exact ih (take_samples_cached_WF hWF) p ht

/-- If every leaf in the list is already fully cached, the pre-caching loop
is the identity on the state. -/
theorem precacheLeaves_id {L : List (Id × Uncertain)} {count : Nat}
    {st : CacheState} (hful : LeafFull L count st) :
    precacheLeaves L count st = st := by
  induction L with
  | nil => rfl
  | cons hd tl ih =>
      obtain ⟨k, lu⟩ := hd
      obtain ⟨v, hv, -⟩ := hful (k, lu) (List.mem_cons_self (k, lu) tl)
      show precacheLeaves tl count (lu.take_samples_cached count st).2 = st
      rw [take_samples_cached_id hv]
      exact ih (fun p hp => hful p (List.mem_cons_of_mem _ hp))

/-- The pre-caching loop with `count = 0` never invokes a draw closure. -/
theorem precacheLeaves_zero_drawCount (L : List (Id × Uncertain))
    (st : CacheState) :
    (precacheLeaves L 0 st).drawCount = st.drawCount := by
  induction L generalizing st with
  | nil => rfl
  | cons hd tl ih =>
      obtain ⟨k, lu⟩ := hd
      show (precacheLeaves tl 0 (lu.take_samples_cached 0 st).2).drawCount = _
      rw [ih]
      unfold Uncertain.take_samples_cached getOrComputeSamples
      rcases hprobe : cacheGet st.cache lu.id 0 with _ | v
      · simp only [hprobe]
        exact drawN_zero_drawCount _ _ _
      · simp [hprobe]

/-- The pre-caching loop inserts entries only under discovered leaf ids: a
key whose id belongs to no listed leaf stays absent. -/
theorem precacheLeaves_none {L : List (Id × Uncertain)} {count : Nat}
    {st : CacheState} {a : Id} {b : Nat}
    (h : cacheGet st.cache a b = none)
    (hids : ∀ p ∈ L, p.2.id ≠ a) :
    cacheGet (precacheLeaves L count st).cache a b = none := by
  induction L generalizing st with
  | nil => exact h
  | cons hd tl ih =>
      obtain ⟨k, lu⟩ := hd
      have hlid : lu.id ≠ a := hids (k, lu) (List.mem_cons_self (k, lu) tl)
      have hstep : cacheGet (lu.take_samples_cached count st).2.cache a b = none := by
        unfold Uncertain.take_samples_cached getOrComputeSamples
        rcases hprobe : cacheGet st.cache lu.id count with _ | v
        · simp only [hprobe]
          rw [cacheGet_cons_ne _ _ _ _ _ (by simp [hlid]), drawN_cache]
          exact h
        · simp only [hprobe]
          exact h
      exact ih hstep (fun p hp => hids p (List.mem_cons_of_mem _ hp))

theorem lookupLeaf_mem {m : LeafMap} {id : Id} {lu : Uncertain}
    (h : lookupLeaf m id = some lu) : (id, lu) ∈ m := by
  induction m with
  | nil => cases h
  | cons hd tl ih =>
      obtain ⟨k, v⟩ := hd
      by_cases hk : k = id
      · subst hk
        rw [lookupLeaf, if_pos rfl] at h
        cases h
        exact List.mem_cons_self _ _
      · rw [lookupLeaf, if_neg hk] at h
        exact List.mem_cons_of_mem _ (ih h)

theorem lookupLeaf_none_not_key {m : LeafMap} {id : Id}
    (h : lookupLeaf m id = none) : ∀ p ∈ m, p.1 ≠ id := by
  induction m with
  | nil => intro p hp; cases hp
  | cons hd tl ih =>
      obtain ⟨k, v⟩ := hd
      intro p hp
      by_cases hk : k = id
      · rw [lookupLeaf, if_pos hk] at h
        cases h
      · rw [lookupLeaf, if_neg hk] at h
        rcases List.mem_cons.mp hp with he | ht
        · subst he; exact hk
        · exact ih h p ht

theorem lookupLeaf_append_left {m m' : LeafMap} {id : Id} {lu : Uncertain}
    (h : lookupLeaf m id = some lu) : lookupLeaf (m ++ m') id = some lu := by
  induction m with
  | nil => cases h
  | cons hd tl ih =>
      obtain ⟨k, v⟩ := hd
      by_cases hk : k = id
      · subst hk
        rw [lookupLeaf, if_pos rfl] at h
        simpa [lookupLeaf] using h
      · rw [lookupLeaf, if_neg hk] at h
        show lookupLeaf ((k, v) :: (tl ++ m')) id = some lu
        rw [lookupLeaf, if_neg hk]
        exact ih h

theorem lookupLeaf_append_new {m : LeafMap} {id : Id} (lu : Uncertain)
    (h : lookupLeaf m id = none) :
    lookupLeaf (m ++ [(id, lu)]) id = some lu := by
  induction m with
  | nil => simp [lookupLeaf]
  | cons hd tl ih =>
      obtain ⟨k, v⟩ := hd
      by_cases hk : k = id
      · rw [lookupLeaf, if_pos hk] at h
        cases h
      · rw [lookupLeaf, if_neg hk] at h
        show lookupLeaf ((k, v) :: (tl ++ [(id, lu)])) id = some lu
        rw [lookupLeaf, if_neg hk]
        exact ih h

/-- Discovery only ever adds entries: a key already mapped keeps its value.
This is what makes the identity-keyed map collapse duplicate sources to a
single entry. -/
theorem collect_leaves_recursive_mono (node : ComputationNode) :
    ∀ (acc : LeafMap) (id : Id) (lu : Uncertain),
      lookupLeaf acc id = some lu →
      lookupLeaf (collect_leaves_recursive node acc) id = some lu := by
  induction node with
  | Leaf nid s =>
      intro acc id lu h
      show lookupLeaf (if containsLeaf acc nid then acc else _) id = some lu
      split
      · exact h
      · exact lookupLeaf_append_left h
  | BinaryOp left right op ihl ihr =>
      intro acc id lu h
      exact ihr _ _ _ (ihl _ _ _ h)
  | UnaryOp operand op ih =>
      intro acc id lu h
      exact ih _ _ _ h
  | Conditional c t f iht ihf =>
      intro acc id lu h
      exact ihf _ _ _ (iht _ _ _ h)

theorem covers_mono {a b : LeafMap}
    (hmono : ∀ id lu, lookupLeaf a id = some lu → lookupLeaf b id = some lu) :
    ∀ node : ComputationNode, Covers a node → Covers b node := by
  intro node
  induction node with
  | Leaf nid s =>
      intro h
      obtain ⟨lu, hl⟩ := h
      exact ⟨lu, hmono _ _ hl⟩
  | BinaryOp left right op ihl ihr =>
      intro h
      exact ⟨ihl h.1, ihr h.2⟩
  | UnaryOp operand op ih =>
      intro h
      exact ih h
  | Conditional c t f iht ihf =>
      intro h
      exact trivial

/-- Completeness of discovery: the map built by `collect_leaves_recursive`
covers the traversed graph. -/
theorem collect_leaves_recursive_covers (node : ComputationNode) :
    ∀ acc : LeafMap, Covers (collect_leaves_recursive node acc) node := by
  induction node with
  | Leaf nid s =>
      intro acc
      show Covers (if containsLeaf acc nid then acc else _) (ComputationNode.Leaf nid s)
      by_cases hc : containsLeaf acc nid
      · rw [if_pos hc]
        obtain ⟨lu, hl⟩ := Option.isSome_iff_exists.mp hc
        exact ⟨lu, hl⟩
      · rw [if_neg hc]
        have hnone : lookupLeaf acc nid = none := by
          rcases hl : lookupLeaf acc nid with _ | lu
          · rfl
          · exact absurd (by rw [containsLeaf, hl]; rfl) hc
        exact ⟨_, lookupLeaf_append_new _ hnone⟩
  | BinaryOp left right op ihl ihr =>
      intro acc
      constructor
      · exact covers_mono (fun id lu h => collect_leaves_recursive_mono right _ _ _ h)
          left (ihl acc)
      · exact ihr _
  | UnaryOp operand op ih =>
      intro acc
      exact ih acc
  | Conditional c t f iht ihf =>
      intro acc
      exact trivial

theorem collect_leaves_covers (node : ComputationNode) :
    Covers (collect_leaves node) node :=
  collect_leaves_recursive_covers node []

/-- Every wrapper inserted by discovery carries the id it is keyed under. -/
theorem collect_leaves_recursive_id_eq (node : ComputationNode) :
    ∀ acc : LeafMap, (∀ p ∈ acc, p.2.id = p.1) →
      ∀ p ∈ collect_leaves_recursive node acc, p.2.id = p.1 := by
  induction node with
  | Leaf nid s =>
      intro acc hacc p hp
      by_cases hc : containsLeaf acc nid
      · rw [collect_leaves_recursive, if_pos hc] at hp
        exact hacc p hp
      · rw [collect_leaves_recursive, if_neg hc] at hp
        rcases List.mem_append.mp hp with hl | hr
        · exact hacc p hl
        · rcases List.mem_singleton.mp hr with rfl
          rfl
  | BinaryOp left right op ihl ihr =>
      intro acc hacc p hp
      exact ihr _ (ihl _ hacc) p hp
  | UnaryOp operand op ih =>
      intro acc hacc p hp
      exact ih _ hacc p hp
  | Conditional c t f iht ihf =>
      intro acc hacc p hp
      exact ihf _ (iht _ hacc) p hp

theorem collect_leaves_id_eq (node : ComputationNode) :
    ∀ p ∈ collect_leaves node, p.2.id = p.1 :=
  collect_leaves_recursive_id_eq node [] (fun p hp => absurd hp (List.not_mem_nil p))

theorem drawOne_cache (id : Id) (s : Nat → Value) (st : CacheState) :
    (drawOne id s st).2.cache = st.cache := rfl

/-- When the leaf map covers the graph and every registered leaf is fully
cached for the requested count, evaluating any in-range sample index leaves
the state untouched (no insertion, no draw) — whether it returns a value or
panics on a `Conditional`. -/
theorem evaluate_state_eq (lm : LeafMap) (n : Nat) (st : CacheState)
    (hful : LeafFull lm n st) (i : Nat) (hi : i < n) :
    ∀ node : ComputationNode, Covers lm node →
      (evaluate_with_cached_leaves node lm i n st).2 = st := by
  intro node
  induction node with
  | Leaf id s =>
      intro hcov
      obtain ⟨lu, hl⟩ := hcov
      obtain ⟨v, hv, hlen⟩ := hful (id, lu) (lookupLeaf_mem hl)
      have hi' : i < v.length := by rw [hlen]; exact hi
      have hg := @getOrComputeSamples_present st _ _ _
        (drawN lu.id lu.sample_fn n) hv
      simp only [evaluate_with_cached_leaves, hl, hg, List.get?_eq_get hi']
  | BinaryOp left right op ihl ihr =>
      intro hcov
      have hL := ihl hcov.1
      have hR := ihr hcov.2
      simp only [evaluate_with_cached_leaves]
      rcases hL1 : (evaluate_with_cached_leaves left lm i n st).1 with e | v1
      · simp only [hL1, hL]
      · simp only [hL1, hL]
        rcases hR1 : (evaluate_with_cached_leaves right lm i n st).1 with e | v2
        · simp only [hR1, hR]
        · simp only [hR1, hR]
  | UnaryOp operand op ih =>
      intro hcov
      have hO := ih hcov
      simp only [evaluate_with_cached_leaves]
      rcases hO1 : (evaluate_with_cached_leaves operand lm i n st).1 with e | v1
      · simp only [hO1, hO]
      · cases op with
        | Map f => simp only [hO1, hO]
        | Filter p => simp only [hO1, hO]
  | Conditional c t f iht ihf =>
      intro hcov
      rfl

theorem LeafFull_of_agree {lm : LeafMap} {n : Nat} {stA stB : CacheState}
    (hfulA : LeafFull lm n stA)
    (hagree : ∀ p ∈ lm, cacheGet stA.cache p.2.id n = cacheGet stB.cache p.2.id n) :
    LeafFull lm n stB := by
  intro p hp
  obtain ⟨v, hv, hlen⟩ := hfulA p hp
  exact ⟨v, by rw [← hagree p hp]; exact hv, hlen⟩

/-- Under full leaf coverage, the value of an in-range evaluation depends
only on the cached leaf sequences, not on the rest of the state: two states
agreeing on every registered leaf entry produce the same result. -/
theorem evaluate_agree (lm : LeafMap) (n : Nat) (stA stB : CacheState)
    (hfulA : LeafFull lm n stA)
    (hagree : ∀ p ∈ lm, cacheGet stA.cache p.2.id n = cacheGet stB.cache p.2.id n)
    (i : Nat) (hi : i < n) :
    ∀ node : ComputationNode, Covers lm node →
      (evaluate_with_cached_leaves node lm i n stA).1
        = (evaluate_with_cached_leaves node lm i n stB).1 := by
  have hfulB : LeafFull lm n stB := LeafFull_of_agree hfulA hagree
  intro node
  induction node with
  | Leaf id s =>
      intro hcov
      obtain ⟨lu, hl⟩ := hcov
      have hmem := lookupLeaf_mem hl
      obtain ⟨v, hv, hlen⟩ := hfulA (id, lu) hmem
      have hvB : cacheGet stB.cache lu.id n = some v := by
        rw [← hagree (id, lu) hmem]; exact hv
      have hi' : i < v.length := by rw [hlen]; exact hi
      have hgA := @getOrComputeSamples_present stA _ _ _
        (drawN lu.id lu.sample_fn n) hv
      have hgB := @getOrComputeSamples_present stB _ _ _
        (drawN lu.id lu.sample_fn n) hvB
      simp only [evaluate_with_cached_leaves, hl, hgA, hgB, List.get?_eq_get hi']
  | BinaryOp left right op ihl ihr =>
      intro hcov
      have hstA := evaluate_state_eq lm n stA hfulA i hi left hcov.1
      have hstB := evaluate_state_eq lm n stB hfulB i hi left hcov.1
      have hval := ihl hcov.1
      have hvalR := ihr hcov.2
      simp only [evaluate_with_cached_leaves]
      rcases hL1 : (evaluate_with_cached_leaves left lm i n stA).1 with e | v1
      · rw [hL1] at hval
        simp only [hL1, ← hval]
      · rw [hL1] at hval
        simp only [hL1, ← hval, hstA, hstB]
        rcases hR1 : (evaluate_with_cached_leaves right lm i n stA).1 with e | v2
        · rw [hR1] at hvalR
          simp only [hR1, ← hvalR]
        · rw [hR1] at hvalR
          simp only [hR1, ← hvalR]
  | UnaryOp operand op ih =>
      intro hcov
      have hval := ih hcov
      simp only [evaluate_with_cached_leaves]
      rcases hO1 : (evaluate_with_cached_leaves operand lm i n stA).1 with e | v1
      · rw [hO1] at hval
        simp only [hO1, ← hval]
      · rw [hO1] at hval
        cases op with
        | Map f => simp only [hO1, ← hval]
        | Filter p => simp only [hO1, ← hval]
  | Conditional c t f iht ihf =>
      intro hcov
      rfl

/-- On a `Conditional`-free graph every evaluation returns a value: the only
panic site is the `Conditional` arm. -/
theorem evaluate_ok (lm : LeafMap) (i n : Nat) :
    ∀ node : ComputationNode, noConditional node = true →
      ∀ st : CacheState, ∃ v st',
        evaluate_with_cached_leaves node lm i n st = (.ok v, st') := by
  intro node
  induction node with
  | Leaf id s =>
      intro hnc st
      rcases hl : lookupLeaf lm id with _ | lu
      · simp only [evaluate_with_cached_leaves, hl]
        exact ⟨_, _, rfl⟩
      · rcases hg : (getOrComputeSamples st lu.id n
            (drawN lu.id lu.sample_fn n)).1.get? i with _ | v
        · simp only [evaluate_with_cached_leaves, hl, hg]
          exact ⟨_, _, rfl⟩
        · simp only [evaluate_with_cached_leaves, hl, hg]
          exact ⟨_, _, rfl⟩
  | BinaryOp left right op ihl ihr =>
      intro hnc st
      rw [noConditional, Bool.and_eq_true] at hnc
      obtain ⟨v1, st1, h1⟩ := ihl hnc.1 st
      obtain ⟨v2, st2, h2⟩ := ihr hnc.2 st1
      simp only [evaluate_with_cached_leaves, h1, h2]
      exact ⟨_, _, rfl⟩
  | UnaryOp operand op ih =>
      intro hnc st
      rw [noConditional] at hnc
      obtain ⟨v1, st1, h1⟩ := ih hnc st
      cases op with
      | Map f =>
          simp only [evaluate_with_cached_leaves, h1]
          exact ⟨_, _, rfl⟩
      | Filter p =>
          simp only [evaluate_with_cached_leaves, h1]
          exact ⟨_, _, rfl⟩
  | Conditional c t f iht ihf =>
      intro hnc st
      rw [noConditional] at hnc
      cases hnc

/-- Evaluation never disturbs a cache entry that is already present: its
only cache writes go through `get_or_compute`. -/
theorem evaluate_pres (lm : LeafMap) (i n : Nat) (a : Id) (b : Nat)
    (w : List Value) :
    ∀ (node : ComputationNode) (st : CacheState),
      cacheGet st.cache a b = some w →
      cacheGet (evaluate_with_cached_leaves node lm i n st).2.cache a b = some w := by
  intro node
  induction node with
  | Leaf id s =>
      intro st h
      rcases hl : lookupLeaf lm id with _ | lu
      · simp only [evaluate_with_cached_leaves, hl, drawOne_cache]
        exact h
      · have hg : cacheGet (getOrComputeSamples st lu.id n
            (drawN lu.id lu.sample_fn n)).2.cache a b = some w :=
          getOrComputeSamples_pres (fun _ => rfl) h
        rcases hi : (getOrComputeSamples st lu.id n
            (drawN lu.id lu.sample_fn n)).1.get? i with _ | v
        · simp only [evaluate_with_cached_leaves, hl, hi, drawOne_cache]
          exact hg
        · simp only [evaluate_with_cached_leaves, hl, hi]
          exact hg
  | BinaryOp left right op ihl ihr =>
      intro st h
      have hL := ihl st h
      simp only [evaluate_with_cached_leaves]
      rcases hL1 : (evaluate_with_cached_leaves left lm i n st).1 with e | v1
      · simp only [hL1]
        exact hL
      · have hR := ihr (evaluate_with_cached_leaves left lm i n st).2 hL
        simp only [hL1]
        rcases hR1 : (evaluate_with_cached_leaves right lm i n
            (evaluate_with_cached_leaves left lm i n st).2).1 with e | v2
        · simp only [hR1]
          exact hR
        · simp only [hR1]
          exact hR
  | UnaryOp operand op ih =>
      intro st h
      have hO := ih st h
      simp only [evaluate_with_cached_leaves]
      rcases hO1 : (evaluate_with_cached_leaves operand lm i n st).1 with e | v1
      · simp only [hO1]
        exact hO
      · cases op with
        | Map f =>
            simp only [hO1]
            exact hO
        | Filter p =>
            simp only [hO1]
            exact hO
  | Conditional c t f iht ihf =>
      intro st h
      exact h

/-- Under coverage and full leaf caches, the whole per-index loop leaves the
state untouched. -/
theorem evalIndices_state_eq (node : ComputationNode) (lm : LeafMap) (n : Nat)
    (st : CacheState) (hcov : Covers lm node) (hful : LeafFull lm n st) :
    ∀ rem idx, idx + rem ≤ n → (evalIndices node lm n idx rem st).2 = st := by
  intro rem
  induction rem with
  | zero => intro idx hle; rfl
  | succ m ih =>
      intro idx hle
      have hidx : idx < n := by omega
      have hE2 : (evaluate_with_cached_leaves node lm idx n st).2 = st :=
        evaluate_state_eq lm n st hful idx hidx node hcov
      simp only [evalIndices]
      rcases hE1 : (evaluate_with_cached_leaves node lm idx n st).1 with e | v
      · simp only [hE1]
        exact hE2
      · simp only [hE1, hE2]
        have hrest := ih (idx + 1) (by omega)
        rcases hR1 : (evalIndices node lm n (idx + 1) m st).1 with e | vs
        · simp only [hR1]
          exact hrest
        · simp only [hR1]
          exact hrest

theorem evalIndices_length (node : ComputationNode) (lm : LeafMap) (n : Nat) :
    ∀ (rem idx : Nat) (st : CacheState) (vs : List Value),
      (evalIndices node lm n idx rem st).1 = .ok vs → vs.length = rem := by
  intro rem
  induction rem with
  | zero =>
      intro idx st vs h
      cases h
      rfl
  | succ m ih =>
      intro idx st vs h
      simp only [evalIndices] at h
      rcases hE1 : (evaluate_with_cached_leaves node lm idx n st).1 with e | v
      · simp only [hE1] at h
        cases h
      · simp only [hE1] at h
        rcases hR1 : (evalIndices node lm n (idx + 1) m
            (evaluate_with_cached_leaves node lm idx n st).2).1 with e | vs2
        · simp only [hR1] at h
          cases h
        · simp only [hR1] at h
          cases h
          simp [ih _ _ _ hR1]

theorem evalIndices_pres (node : ComputationNode) (lm : LeafMap) (n : Nat)
    (a : Id) (b : Nat) (w : List Value) :
    ∀ (rem idx : Nat) (st : CacheState),
      cacheGet st.cache a b = some w →
      cacheGet (evalIndices node lm n idx rem st).2.cache a b = some w := by
  intro rem
  induction rem with
  | zero => intro idx st h; exact h
  | succ m ih =>
      intro idx st h
      have hE := evaluate_pres lm idx n a b w node st h
      simp only [evalIndices]
      rcases hE1 : (evaluate_with_cached_leaves node lm idx n st).1 with e | v
      · simp only [hE1]
        exact hE
      · have hrest := ih (idx + 1) _ hE
        simp only [hE1]
        rcases hR1 : (evalIndices node lm n (idx + 1) m
            (evaluate_with_cached_leaves node lm idx n st).2).1 with e | vs
        · simp only [hR1]
          exact hrest
        · simp only [hR1]
          exact hrest

/-- When each in-range index evaluates to `g idx` without touching the
state, the loop returns the map of `g` over the index range. -/
theorem evalIndices_pointwise (node : ComputationNode) (lm : LeafMap) (n : Nat)
    (st : CacheState) (g : Nat → Value)
    (h : ∀ j, j < n →
      evaluate_with_cached_leaves node lm j n st = (.ok (g j), st)) :
    ∀ rem idx, idx + rem ≤ n →
      evalIndices node lm n idx rem st = (.ok ((List.range' idx rem).map g), st) := by
  intro rem
  induction rem with
  | zero => intro idx hle; rfl
  | succ m ih =>
      intro idx hle
      have hidx : idx < n := by omega
      simp only [evalIndices, h idx hidx, ih (idx + 1) (by omega),
        List.range'_succ, List.map_cons]

/-- On a `Conditional`-free graph the whole loop returns a value list. -/
theorem evalIndices_ok (node : ComputationNode) (lm : LeafMap) (n : Nat)
    (hnc : noConditional node = true) :
    ∀ (rem idx : Nat) (st : CacheState),
      ∃ vs st', evalIndices node lm n idx rem st = (.ok vs, st') := by
  intro rem
  induction rem with
  | zero => intro idx st; exact ⟨[], st, rfl⟩
  | succ m ih =>
      intro idx st
      obtain ⟨v, st1, hE⟩ := evaluate_ok lm idx n node hnc st
      obtain ⟨vs, st2, hR⟩ := ih (idx + 1) st1
      simp only [evalIndices, hE, hR]
      exact ⟨_, _, rfl⟩

/-- Two states agreeing on every registered leaf entry run the whole
per-index loop to the same outcome. -/
theorem evalIndices_agree (node : ComputationNode) (lm : LeafMap) (n : Nat)
    (stA stB : CacheState) (hcov : Covers lm node) (hfulA : LeafFull lm n stA)
    (hagree : ∀ p ∈ lm, cacheGet stA.cache p.2.id n = cacheGet stB.cache p.2.id n) :
    ∀ rem idx, idx + rem ≤ n →
      (evalIndices node lm n idx rem stA).1 = (evalIndices node lm n idx rem stB).1 := by
  have hfulB := LeafFull_of_agree hfulA hagree
  intro rem
  induction rem with
  | zero => intro idx hle; rfl
  | succ m ih =>
      intro idx hle
      have hidx : idx < n := by omega
      have hvals := evaluate_agree lm n stA stB hfulA hagree idx hidx node hcov
      have hsA := evaluate_state_eq lm n stA hfulA idx hidx node hcov
      have hsB := evaluate_state_eq lm n stB hfulB idx hidx node hcov
      simp only [evalIndices]
      rcases hE1 : (evaluate_with_cached_leaves node lm idx n stA).1 with e | v
      · rw [hE1] at hvals
        simp only [hE1, ← hvals]
      · rw [hE1] at hvals
        simp only [hE1, ← hvals, hsA, hsB]
        have hrest := ih (idx + 1) (by omega)
        rcases hR1 : (evalIndices node lm n (idx + 1) m stA).1 with e | vs
        · rw [hR1] at hrest
          simp only [hR1, ← hrest]
        · rw [hR1] at hrest
          simp only [hR1, ← hrest]

/-- Reading a list back by index over its whole range reproduces the list. -/
theorem map_getD_range' (l : List Value) :
    ∀ n s, s + n = l.length →
      (List.range' s n).map (fun j => l.getD j 0) = l.drop s := by
  intro n
  induction n with
  | zero =>
      intro s h
      have hs : s = l.length := by omega
      subst hs
      simp [List.range', List.drop_length]
  | succ m ih =>
      intro s h
      have hs : s < l.length := by omega
      rw [List.range'_succ, List.map_cons, ih (s + 1) (by omega),
        List.getD_eq_getElem l 0 hs, List.drop_eq_getElem_cons hs]

/-! ### Concrete fixtures shared by witnesses and counterexamples -/

/-- The empty initial state: empty cache, no draws performed yet. -/
def stEmpty : CacheState := { cache := [], drawCount := fun _ => 0 }

theorem WF_stEmpty : WF stEmpty := by
  intro id n v h
  exact Option.noConfusion h

/-- A deterministic draw stream yielding `1, 2, 3, …` on successive
invocations (the spec's `sequence_of(1,2,3,4,5)` stand-in). -/
def sIncr : Nat → Value := fun n => (n : ℤ) + 1

/-- The end-to-end example handle: `UnaryOp(Map(x => x*2), source)` over a
source with identity `0` drawing `1,2,3,…`; handle identity `1`. -/
def uMapExample : Uncertain :=
  { id := 1, sample_fn := fun _ => 0,
    node := .UnaryOp (.Leaf 0 sIncr) (.Map (fun x => 2 * x)) }

/-- A handle whose root is a bare source leaf with identity `0`. -/
def uBareLeaf : Uncertain :=
  { id := 0, sample_fn := sIncr, node := .Leaf 0 sIncr }

/-- A state whose cache was primed with a root-level entry `[99]` for key
`(1, 1)` — the identity of `uRootPrimed` below. -/
def stRootPrimed : CacheState := { cache := [((1, 1), [99])], drawCount := fun _ => 0 }

/-- A handle with identity `1` over a source leaf with identity `0` that
always draws `5`. -/
def uRootPrimed : Uncertain :=
  { id := 1, sample_fn := fun _ => 0, node := .Leaf 0 (fun _ => 5) }

/-- A mismatched state: the cache maps `(0, 1)` to the empty sequence, so
sample index `0` is absent from an otherwise-cached entry. -/
def stShortEntry : CacheState :=
  { cache := [((0, 1), ([] : List Value))], drawCount := fun _ => 0 }

/-- The wrapper for leaf `0` as discovery would build it. -/
def luShort : Uncertain := { id := 0, sample_fn := sIncr, node := .Leaf 0 sIncr }

/-- A leaf map registering leaf `0`. -/
def lmShort : LeafMap := [(0, luShort)]

/-! ### Claims -/

/-- Claim C8: evaluating a `UnaryOp` node whose operation is `Filter`
returns the operand's evaluation unchanged — result and state; the
predicate neither alters, rejects, nor resamples the value at this layer. -/
theorem filter_passthrough (operand : ComputationNode) (p : Value → Bool)
    (lm : LeafMap) (i n : Nat) (st : CacheState) :
    evaluate_with_cached_leaves (.UnaryOp operand (.Filter p)) lm i n st
      = evaluate_with_cached_leaves operand lm i n st := by
  rcases hO : evaluate_with_cached_leaves operand lm i n st with ⟨res, st1⟩
  simp only [evaluate_with_cached_leaves, hO]
  cases res <;> rfl

/-- Claim C5: reaching a `Conditional` node during f64 evaluation signals
the fatal panic immediately — the error is raised at the node itself with
the state untouched — and a `sample` call on a handle whose graph root is a
`Conditional`, with a positive count, terminates with that error: no value
is produced for the call. -/
theorem conditional_fatal (u : Uncertain) (count : Nat) (st : CacheState)
    (c : BoolNode) (t f : ComputationNode) (lm : LeafMap) (i n : Nat)
    (stE : CacheState)
    (hnode : u.node = .Conditional c t f) (hcount : 0 < count) :
    evaluate_with_cached_leaves (.Conditional c t f) lm i n stE
        = (.error "Conditional nodes not supported for f64 recursive caching", stE)
      ∧ (u.take_samples_cached_recursive count st).1
        = .error "Conditional nodes not supported for f64 recursive caching" := by
  constructor
  · rfl
  · obtain ⟨m, rfl⟩ : ∃ m, count = m + 1 := ⟨count - 1, by omega⟩
    simp only [Uncertain.take_samples_cached_recursive, hnode, evalIndices,
      evaluate_with_cached_leaves]

/-- Witness for C5 at a concrete conditional graph. -/
theorem conditional_fatal_witness :
    evaluate_with_cached_leaves
        (.Conditional (.Leaf 0 (fun _ => true)) (.Leaf 0 sIncr) (.Leaf 0 sIncr))
        [] 0 1 stEmpty
        = (.error "Conditional nodes not supported for f64 recursive caching", stEmpty)
      ∧ (Uncertain.take_samples_cached_recursive
          ⟨3, sIncr, .Conditional (.Leaf 0 (fun _ => true)) (.Leaf 0 sIncr) (.Leaf 0 sIncr)⟩
          1 stEmpty).1
        = .error "Conditional nodes not supported for f64 recursive caching" :=
  conditional_fatal
    ⟨3, sIncr, .Conditional (.Leaf 0 (fun _ => true)) (.Leaf 0 sIncr) (.Leaf 0 sIncr)⟩
    1 stEmpty _ _ _ [] 0 1 stEmpty rfl (by decide)

/-- Claim C7: `sample(handle, 0)` returns the empty sequence for every
graph and every starting state, and no draw closure is invoked (every
per-identity invocation counter is unchanged). -/
theorem zero_count_empty_no_draw (u : Uncertain) (st : CacheState) :
    (u.take_samples_cached_recursive 0 st).1 = .ok []
      ∧ (u.take_samples_cached_recursive 0 st).2.drawCount = st.drawCount := by
  constructor
  · simp only [Uncertain.take_samples_cached_recursive, evalIndices]
  · simp only [Uncertain.take_samples_cached_recursive, evalIndices]
    rcases hprobe : cacheGet (precacheLeaves (collect_leaves u.node) 0 st).cache
        u.id 0 with _ | v
    · rw [getOrComputeSamples_absent _ hprobe]
      exact precacheLeaves_zero_drawCount _ _
    · rw [getOrComputeSamples_present _ hprobe]
      exact precacheLeaves_zero_drawCount _ _

/-- Claim C10: on any finite `Conditional`-free graph the engine is total:
`take_samples_cached_recursive` returns a value list (discovery and
per-index evaluation are structural recursions, so termination is by
construction of the embedding). -/
theorem total_on_no_conditional (u : Uncertain) (count : Nat) (st : CacheState)
    (h : noConditional u.node = true) :
    ∃ xs st', u.take_samples_cached_recursive count st = (.ok xs, st') := by
  obtain ⟨vs, st2, hE⟩ := evalIndices_ok u.node (collect_leaves u.node) count h
    count 0 (precacheLeaves (collect_leaves u.node) count st)
  simp only [Uncertain.take_samples_cached_recursive, hE]
  exact ⟨_, _, rfl⟩

/-- Witness for C10 on the end-to-end example graph. -/
theorem total_on_no_conditional_witness :
    ∃ xs st', Uncertain.take_samples_cached_recursive uMapExample 2 stEmpty
      = (.ok xs, st') :=
  total_on_no_conditional uMapExample 2 stEmpty (by decide)

/-- Counterexample to claim C3 as stated: with the cache holding an empty
sequence under `(0, 1)`, sample index `0` is absent, yet evaluation does
not fail — it silently invokes the leaf's draw closure once more (the
invocation counter rises from 0 to 1) and returns the fresh draw. -/
theorem missing_index_redraw_counterexample :
    cacheGet stShortEntry.cache 0 1 = some []
      ∧ (evaluate_with_cached_leaves (.Leaf 0 sIncr) lmShort 0 1 stShortEntry).1
          = .ok 1
      ∧ (evaluate_with_cached_leaves (.Leaf 0 sIncr) lmShort 0 1 stShortEntry).2.drawCount 0
          = 1 := by
  refine ⟨by decide, by decide, by decide⟩

/-- Claim C3 amended: when the requested sample index is absent from a
leaf's cached sequence, the evaluator does not treat it as an invariant
violation — it falls back to invoking the node's draw closure once and
returns that fresh value. -/
theorem missing_index_silently_redraws (lm : LeafMap) (id : Id)
    (s : Nat → Value) (lu : Uncertain) (seq : List Value) (i n : Nat)
    (st : CacheState)
    (h1 : lookupLeaf lm id = some lu)
    (h2 : cacheGet st.cache lu.id n = some seq)
    (h3 : seq.get? i = none) :
    evaluate_with_cached_leaves (.Leaf id s) lm i n st
      = (.ok (s (st.drawCount id)), (drawOne id s st).2) := by
  have hg := @getOrComputeSamples_present st _ _ _ (drawN lu.id lu.sample_fn n) h2
  simp only [evaluate_with_cached_leaves, h1, hg, h3]
  rfl

/-- Witness for the amended C3 at the concrete mismatched state. -/
theorem missing_index_silently_redraws_witness :
    evaluate_with_cached_leaves (.Leaf 0 sIncr) lmShort 0 1 stShortEntry
      = (.ok (sIncr (stShortEntry.drawCount 0)), (drawOne 0 sIncr stShortEntry).2) :=
  missing_index_silently_redraws lmShort 0 sIncr luShort [] 0 1 stShortEntry
    rfl rfl rfl

/-- Counterexample to claim C4 as stated: with `(handle.identity, count)`
already cached as `[99]`, `sample(handle, 1)` does not return the stored
sequence and does not avoid drawing — it returns the freshly evaluated
`[5]` and invokes the source's draw once. -/
theorem no_top_level_probe_counterexample :
    cacheGet stRootPrimed.cache 1 1 = some [99]
      ∧ (uRootPrimed.take_samples_cached_recursive 1 stRootPrimed).1 = .ok [5]
      ∧ (uRootPrimed.take_samples_cached_recursive 1 stRootPrimed).2.drawCount 0 = 1 := by
  refine ⟨by decide, by decide, by decide⟩

/-- Claim C4 amended: `take_samples_cached_recursive` performs no top-level
cache probe; even when `(handle.identity, count)` is present it re-walks
the graph and returns the freshly computed sequence, and the pre-existing
entry is merely left in place (the final `get_or_compute` never overwrites
it). -/
theorem root_entry_never_overwritten (u : Uncertain) (count : Nat)
    (st : CacheState) (v : List Value)
    (h : cacheGet st.cache u.id count = some v) :
    cacheGet (u.take_samples_cached_recursive count st).2.cache u.id count
      = some v := by
  have h1 := @precacheLeaves_pres (collect_leaves u.node) count _ _ _ _ h
  have h2 := evalIndices_pres u.node (collect_leaves u.node) count u.id count v
    count 0 _ h1
  simp only [Uncertain.take_samples_cached_recursive]
  rcases hE : (evalIndices u.node (collect_leaves u.node) count 0 count
      (precacheLeaves (collect_leaves u.node) count st)).1 with e | results
  · simp only [hE]
    exact h2
  · simp only [hE]
    exact getOrComputeSamples_pres (fun _ => rfl) h2

/-- Witness for the amended C4 at the primed state. -/
theorem root_entry_never_overwritten_witness :
    cacheGet (uRootPrimed.take_samples_cached_recursive 1 stRootPrimed).2.cache 1 1
      = some [99] :=
  root_entry_never_overwritten uRootPrimed 1 stRootPrimed [99] (by decide)

/-- Claim C9: the end-to-end `Map` example — a source drawing `1,2,3,4,5`
under `Map(x => x*2)` yields `[2,4,6,8,10]`; an immediately repeated call
returns the same sequence; and across both calls the source's draw was
invoked exactly 5 times (and the handle's own draw never). -/
theorem end_to_end_map_example :
    (uMapExample.take_samples_cached_recursive 5 stEmpty).1 = .ok [2, 4, 6, 8, 10]
      ∧ (uMapExample.take_samples_cached_recursive 5
            (uMapExample.take_samples_cached_recursive 5 stEmpty).2).1
          = .ok [2, 4, 6, 8, 10]
      ∧ (uMapExample.take_samples_cached_recursive 5
            (uMapExample.take_samples_cached_recursive 5 stEmpty).2).2.drawCount 0 = 5
      ∧ (uMapExample.take_samples_cached_recursive 5
            (uMapExample.take_samples_cached_recursive 5 stEmpty).2).2.drawCount 1 = 0 := by
  refine ⟨by decide, by decide, by decide, by decide⟩

/-- Claim C1: for a graph `BinaryOp(Subtract, source, source)` referencing
the same source leaf twice, sampling yields all zeros — for every count,
every draw stream, and every well-formed starting cache. Discovery
collapses the duplicated identity to a single map entry, and both
occurrences read the same cached value at each index. -/
theorem sub_self_all_zeros (sid : Id) (s : Nat → Value) (uid : Id)
    (ufn : Nat → Value) (N : Nat) (st : CacheState) (hWF : WF st) :
    (Uncertain.take_samples_cached_recursive
        ⟨uid, ufn, .BinaryOp (.Leaf sid s) (.Leaf sid s) (fun a b => a - b)⟩
        N st).1
      = .ok (List.replicate N 0) := by
  have hcov := collect_leaves_covers
    (ComputationNode.BinaryOp (.Leaf sid s) (.Leaf sid s) (fun a b => a - b))
  simp only [Covers] at hcov
  obtain ⟨⟨lu, hl⟩, -⟩ := hcov
  have hful := @precacheLeaves_full
    (collect_leaves (ComputationNode.BinaryOp (.Leaf sid s) (.Leaf sid s)
      (fun a b => a - b)))
    N st hWF
  obtain ⟨v, hv, hlen⟩ := hful (sid, lu) (lookupLeaf_mem hl)
  have hpt : ∀ j, j < N →
      evaluate_with_cached_leaves
          (ComputationNode.BinaryOp (.Leaf sid s) (.Leaf sid s) (fun a b => a - b))
          (collect_leaves (ComputationNode.BinaryOp (.Leaf sid s) (.Leaf sid s)
            (fun a b => a - b)))
          j N
          (precacheLeaves (collect_leaves (ComputationNode.BinaryOp (.Leaf sid s)
            (.Leaf sid s) (fun a b => a - b))) N st)
        = (.ok 0, precacheLeaves (collect_leaves (ComputationNode.BinaryOp
            (.Leaf sid s) (.Leaf sid s) (fun a b => a - b))) N st) := by
    intro j hj
    have hj' : j < v.length := by rw [hlen]; exact hj
    have hg := @getOrComputeSamples_present
      (precacheLeaves (collect_leaves (ComputationNode.BinaryOp (.Leaf sid s)
        (.Leaf sid s) (fun a b => a - b))) N st)
      _ _ _
      (drawN lu.id lu.sample_fn N) hv
    simp only [evaluate_with_cached_leaves, hl, hg, List.get?_eq_get hj']
    simp
  have hloop := evalIndices_pointwise
    (ComputationNode.BinaryOp (.Leaf sid s) (.Leaf sid s) (fun a b => a - b))
    (collect_leaves (ComputationNode.BinaryOp (.Leaf sid s) (.Leaf sid s)
      (fun a b => a - b)))
    N
    (precacheLeaves (collect_leaves (ComputationNode.BinaryOp (.Leaf sid s)
      (.Leaf sid s) (fun a b => a - b))) N st)
    (fun _ => 0) hpt N 0 (by omega)
  have hrange : (List.range' 0 N).map (fun _ => (0 : Value)) = List.replicate N 0 := by
    simp [List.map_const', List.length_range']
  simp only [Uncertain.take_samples_cached_recursive, hloop, hrange]

/-- Witness for C1: three samples of `source - source` over the stream
`1,2,3,…` starting from the empty cache. -/
theorem sub_self_all_zeros_witness :
    (Uncertain.take_samples_cached_recursive
        ⟨7, sIncr, .BinaryOp (.Leaf 0 sIncr) (.Leaf 0 sIncr) (fun a b => a - b)⟩
        3 stEmpty).1
      = .ok (List.replicate 3 0) :=
  sub_self_all_zeros 0 sIncr 7 sIncr 3 stEmpty WF_stEmpty

/-- A call starting from a state where every discovered leaf is fully
cached, and where the root key is present whenever the loop succeeds, is
pure: it returns the loop's outcome and leaves the state untouched. -/
theorem take_fixed (u : Uncertain) (count : Nat) (stC : CacheState)
    (hcov : Covers (collect_leaves u.node) u.node)
    (hful : LeafFull (collect_leaves u.node) count stC)
    (hroot : ∀ results,
      (evalIndices u.node (collect_leaves u.node) count 0 count stC).1 = .ok results →
      ∃ w, cacheGet stC.cache u.id count = some w) :
    u.take_samples_cached_recursive count stC
      = ((evalIndices u.node (collect_leaves u.node) count 0 count stC).1, stC) := by
  have hpre := precacheLeaves_id hful
  have hIdx2 := evalIndices_state_eq u.node (collect_leaves u.node) count stC
    hcov hful count 0 (by omega)
  rcases hE : (evalIndices u.node (collect_leaves u.node) count 0 count stC).1
      with e | results
  · simp only [Uncertain.take_samples_cached_recursive, hpre, hE, hIdx2]
  · obtain ⟨w, hw⟩ := hroot results hE
    simp only [Uncertain.take_samples_cached_recursive, hpre, hE, hIdx2,
      getOrComputeSamples_present _ hw]

/-- Claim C2: determinism after caching — with no interleaved cache
activity, a second `sample(handle, count)` call returns exactly the
sequence the first call returned and leaves the state exactly as the first
call left it (same values, same order, resting on the same cached draws),
for every handle, every count, and every well-formed starting cache. -/
theorem sample_deterministic (u : Uncertain) (count : Nat) (st : CacheState)
    (hWF : WF st) :
    u.take_samples_cached_recursive count
        ((u.take_samples_cached_recursive count st).2)
      = ((u.take_samples_cached_recursive count st).1,
         (u.take_samples_cached_recursive count st).2) := by
  have hcov := collect_leaves_covers u.node
  have hful := @precacheLeaves_full (collect_leaves u.node) count st hWF
  have hIdx2 := evalIndices_state_eq u.node (collect_leaves u.node) count
    (precacheLeaves (collect_leaves u.node) count st) hcov hful count 0 (by omega)
  rcases hE : (evalIndices u.node (collect_leaves u.node) count 0 count
      (precacheLeaves (collect_leaves u.node) count st)).1 with e | results
  · have hfirst : u.take_samples_cached_recursive count st
        = (.error e, precacheLeaves (collect_leaves u.node) count st) := by
      simp only [Uncertain.take_samples_cached_recursive, hE, hIdx2]
    have hsecond := take_fixed u count
      (precacheLeaves (collect_leaves u.node) count st) hcov hful
      (by intro results hok; rw [hE] at hok; cases hok)
    rw [hfirst]
    show u.take_samples_cached_recursive count
        (precacheLeaves (collect_leaves u.node) count st)
      = (.error e, precacheLeaves (collect_leaves u.node) count st)
    rw [hsecond, hE]
  · rcases hroot : cacheGet (precacheLeaves (collect_leaves u.node) count st).cache
        u.id count with _ | w
    · have hfirst : u.take_samples_cached_recursive count st
          = (.ok results,
             { precacheLeaves (collect_leaves u.node) count st with
                 cache := ((u.id, count), results)
                   :: (precacheLeaves (collect_leaves u.node) count st).cache }) := by
        simp only [Uncertain.take_samples_cached_recursive, hE, hIdx2,
          getOrComputeSamples_absent _ hroot]
      have hagree : ∀ p ∈ collect_leaves u.node,
          cacheGet (precacheLeaves (collect_leaves u.node) count st).cache p.2.id count
            = cacheGet ({ precacheLeaves (collect_leaves u.node) count st with
                 cache := ((u.id, count), results)
                   :: (precacheLeaves (collect_leaves u.node) count st).cache }
                : CacheState).cache p.2.id count := by
        intro p hp
        obtain ⟨v, hv, -⟩ := hful p hp
        have hne : ((u.id, count) : Id × Nat) ≠ (p.2.id, count) := by
          intro he
          rw [Prod.mk.injEq] at he
          rw [he.1] at hroot
          rw [hroot] at hv
          cases hv
        show cacheGet (precacheLeaves (collect_leaves u.node) count st).cache p.2.id count
          = cacheGet (((u.id, count), results)
              :: (precacheLeaves (collect_leaves u.node) count st).cache) p.2.id count
        rw [cacheGet_cons_ne _ _ _ _ _ hne]
      have hfulB := LeafFull_of_agree hful hagree
      have hEB : (evalIndices u.node (collect_leaves u.node) count 0 count
          { precacheLeaves (collect_leaves u.node) count st with
              cache := ((u.id, count), results)
                :: (precacheLeaves (collect_leaves u.node) count st).cache }).1
          = .ok results := by
        rw [← evalIndices_agree u.node (collect_leaves u.node) count
          (precacheLeaves (collect_leaves u.node) count st)
          { precacheLeaves (collect_leaves u.node) count st with
              cache := ((u.id, count), results)
                :: (precacheLeaves (collect_leaves u.node) count st).cache }
          hcov hful hagree count 0 (by omega)]
        exact hE
      have hsecond := take_fixed u count
        { precacheLeaves (collect_leaves u.node) count st with
            cache := ((u.id, count), results)
              :: (precacheLeaves (collect_leaves u.node) count st).cache }
        hcov hfulB
        (fun res _ => ⟨results, cacheGet_cons_self
          (precacheLeaves (collect_leaves u.node) count st).cache u.id count results⟩)
      rw [hfirst]
      show u.take_samples_cached_recursive count
          { precacheLeaves (collect_leaves u.node) count st with
              cache := ((u.id, count), results)
                :: (precacheLeaves (collect_leaves u.node) count st).cache }
        = (.ok results,
           { precacheLeaves (collect_leaves u.node) count st with
               cache := ((u.id, count), results)
                 :: (precacheLeaves (collect_leaves u.node) count st).cache })
      rw [hsecond, hEB]
    · have hfirst : u.take_samples_cached_recursive count st
          = (.ok results, precacheLeaves (collect_leaves u.node) count st) := by
        simp only [Uncertain.take_samples_cached_recursive, hE, hIdx2,
          getOrComputeSamples_present _ hroot]
      have hsecond := take_fixed u count
        (precacheLeaves (collect_leaves u.node) count st) hcov hful
        (fun res _ => ⟨w, hroot⟩)
      rw [hfirst]
      show u.take_samples_cached_recursive count
          (precacheLeaves (collect_leaves u.node) count st)
        = (.ok results, precacheLeaves (collect_leaves u.node) count st)
      rw [hsecond, hE]

/-- Witness for C2: two sequential calls on the bare-leaf handle from the
empty cache. -/
theorem sample_deterministic_witness :
    Uncertain.take_samples_cached_recursive uBareLeaf 3
        ((uBareLeaf.take_samples_cached_recursive 3 stEmpty).2)
      = ((uBareLeaf.take_samples_cached_recursive 3 stEmpty).1,
         (uBareLeaf.take_samples_cached_recursive 3 stEmpty).2) :=
  sample_deterministic uBareLeaf 3 stEmpty WF_stEmpty

/-- Claim C6: idempotent population — after `sample(handle, N)` returns a
sequence `S`, a direct cache probe for `(handle.identity, N)` finds a
present entry equal to `S`; the final store goes through `get_or_compute`
and never overwrites. The hypotheses encode the spec's own data model (§3):
the handle's identity is distinct from every inner source identity unless
the handle wraps a bare source leaf, and the root key is not yet populated
(as in every state the engine itself produces for a fresh handle). -/
theorem idempotent_population (u : Uncertain) (count : Nat) (st : CacheState)
    (S : List Value) (hWF : WF st)
    (habs : cacheGet st.cache u.id count = none)
    (hid : lookupLeaf (collect_leaves u.node) u.id = none
            ∨ ∃ f, u.node = ComputationNode.Leaf u.id f)
    (hok : (u.take_samples_cached_recursive count st).1 = .ok S) :
    cacheGet (u.take_samples_cached_recursive count st).2.cache u.id count
      = some S := by
  have hcov := collect_leaves_covers u.node
  have hful := @precacheLeaves_full (collect_leaves u.node) count st hWF
  have hIdx2 := evalIndices_state_eq u.node (collect_leaves u.node) count
    (precacheLeaves (collect_leaves u.node) count st) hcov hful count 0 (by omega)
  rcases hE : (evalIndices u.node (collect_leaves u.node) count 0 count
      (precacheLeaves (collect_leaves u.node) count st)).1 with e | results
  · simp only [Uncertain.take_samples_cached_recursive, hE] at hok
    cases hok
  · have hres : results = S := by
      simp only [Uncertain.take_samples_cached_recursive, hE] at hok
      exact Except.ok.inj hok
    subst hres
    rcases hid with hfresh | ⟨f, hnode⟩
    · have hids : ∀ p ∈ collect_leaves u.node, p.2.id ≠ u.id := by
        intro p hp he
        have h1 : p.1 = u.id := by
          rw [← collect_leaves_id_eq u.node p hp]
          exact he
        exact lookupLeaf_none_not_key hfresh p hp h1
      have habs1 : cacheGet (precacheLeaves (collect_leaves u.node) count st).cache
          u.id count = none := precacheLeaves_none habs hids
      simp only [Uncertain.take_samples_cached_recursive, hE, hIdx2,
        getOrComputeSamples_absent _ habs1]
      exact cacheGet_cons_self _ _ _ _
    · rw [hnode] at hE hful
      have hlm : collect_leaves (ComputationNode.Leaf u.id f)
          = [(u.id, { id := u.id, sample_fn := f,
                      node := ComputationNode.Leaf u.id f })] := by
        simp [collect_leaves, collect_leaves_recursive, containsLeaf, lookupLeaf]
      have hl : lookupLeaf (collect_leaves (ComputationNode.Leaf u.id f)) u.id
          = some { id := u.id, sample_fn := f,
                   node := ComputationNode.Leaf u.id f } := by
        rw [hlm]
        simp [lookupLeaf]
      obtain ⟨v, hv, hlen⟩ := hful
        (u.id, { id := u.id, sample_fn := f, node := ComputationNode.Leaf u.id f })
        (by rw [hlm]; exact List.mem_cons_self _ _)
      have hv' : cacheGet (precacheLeaves
            (collect_leaves (ComputationNode.Leaf u.id f)) count st).cache
          u.id count = some v := hv
      have hpt : ∀ j, j < count →
          evaluate_with_cached_leaves (ComputationNode.Leaf u.id f)
              (collect_leaves (ComputationNode.Leaf u.id f)) j count
              (precacheLeaves (collect_leaves (ComputationNode.Leaf u.id f)) count st)
            = (.ok (v.getD j 0),
               precacheLeaves (collect_leaves (ComputationNode.Leaf u.id f)) count st) := by
        intro j hj
        have hj' : j < v.length := by rw [hlen]; exact hj
        have hg := @getOrComputeSamples_present
          (precacheLeaves (collect_leaves (ComputationNode.Leaf u.id f)) count st)
          _ _ _
          (drawN u.id f count) hv'
        have hgd : v.getD j 0 = v.get ⟨j, hj'⟩ := by
          rw [List.getD_eq_getElem v 0 hj']
          rfl
        simp only [evaluate_with_cached_leaves, hl, hg, List.get?_eq_get hj']
        rw [hgd]
      have hloop := evalIndices_pointwise (ComputationNode.Leaf u.id f)
        (collect_leaves (ComputationNode.Leaf u.id f)) count
        (precacheLeaves (collect_leaves (ComputationNode.Leaf u.id f)) count st)
        (fun j => v.getD j 0) hpt count 0 (by omega)
      have hmap : (List.range' 0 count).map (fun j => v.getD j 0) = v := by
        have hdrop := map_getD_range' v count 0 (by omega)
        rw [List.drop_zero] at hdrop
        exact hdrop
      rw [hloop] at hE
      have hveq : v = results := by
        rw [hmap] at hE
        exact Except.ok.inj hE
      simp only [Uncertain.take_samples_cached_recursive, hnode, hloop,
        getOrComputeSamples_present _ hv']
      rw [← hveq]
      exact hv'

/-- Witness for C6: two samples of the bare-leaf handle from the empty
cache; the probe finds the returned sequence `[1, 2]`. -/
theorem idempotent_population_witness :
    cacheGet (uBareLeaf.take_samples_cached_recursive 2 stEmpty).2.cache 0 2
      = some [1, 2] :=
  idempotent_population uBareLeaf 2 stEmpty [1, 2] WF_stEmpty (by decide)
    (Or.inr ⟨sIncr, rfl⟩) (by decide)

end UncertainRs
